import Mathlib

/-!
Verification development for the LLM code-deployment pipeline
(`app.py`, `evaluator.py`, `github_manager.py`, `code_generator.py`).

The Python source is shallowly embedded:
* pure string manipulation is translated to Lean functions over `String`
  (with character-level helpers over `List Char` mirroring Python slicing);
* every network call (`requests.post`, the GitHub API, `base64.b64decode`)
  is an oracle parameter describing the observable outcome of that call,
  so the surrounding control flow is translated exactly;
* Python exceptions become `Except` / `Option` values;
* the observable effects of the GitHub publication code are collected as an
  explicit trace of operations (`GitOp`).
-/

/-! ### Character / string helpers (Python `str` primitives) -/

/-- Python whitespace test used by `str.strip()` (the characters relevant here). -/
def isWSChar (c : Char) : Bool := c == ' ' || c == '\t' || c == '\n' || c == '\r'

/-- Drop elements satisfying `p` from both ends of a list (Python `str.strip()`
at character level, and blank-line trimming at line level). -/
def dropEnds (p : α → Bool) (l : List α) : List α :=
  ((l.dropWhile p).reverse.dropWhile p).reverse

/-- Python `s.strip()` on the character list of a string. -/
def trimChars (cs : List Char) : List Char := dropEnds isWSChar cs

/-- Python `s.strip()`. -/
def strTrim (s : String) : String := ⟨trimChars s.data⟩

/-- Python `s.startswith(p)`. -/
def strStartsWith (s p : String) : Bool := p.data.isPrefixOf s.data

/-- Python `s[:n]` (first `n` characters). -/
def strTake (s : String) (n : Nat) : String := ⟨s.data.take n⟩

/-- Does `p` occur as a contiguous subsequence of `l`? (Python `in` on strings.) -/
def containsSeq (p : List Char) : List Char → Bool
  | [] => p.isEmpty
  | l@(_ :: rest) => p.isPrefixOf l || containsSeq p rest

/-- Python `p in s` (substring containment). -/
def strContainsSub (s p : String) : Bool := containsSeq p.data s.data

/-- Python `s.split(sep, 1)` when it actually splits: the parts before and
after the first occurrence of `sep`, or `none` when `sep` does not occur. -/
def splitOnceChar (sep : Char) : List Char → Option (List Char × List Char)
  | [] => none
  | c :: rest =>
    if c == sep then some ([], rest)
    else (splitOnceChar sep rest).map (fun p => (c :: p.1, p.2))

/-! ### `evaluator.py` — `submit_to_evaluation`

The network is abstracted by an oracle `post : Nat → HttpOutcome` giving the
observable outcome of `requests.post` on each (1-indexed) attempt.  The
function itself is a total Lean function: it always returns a `SubmitResult`
(never raises), whose `ok` field is the boolean returned by the Python code,
`delays` the list of `time.sleep` durations performed, and `attempts` the
number of loop iterations executed. -/

/-- Outcome of one `requests.post` call: an HTTP status, a timeout
(`requests.exceptions.Timeout`), or another request error
(`requests.exceptions.RequestException`). -/
inductive HttpOutcome where
  | status (code : Nat)
  | timeout
  | connError
deriving DecidableEq, Repr

structure SubmitResult where
  ok : Bool
  delays : List Nat
  attempts : Nat
deriving DecidableEq, Repr

/-- `retry_delays = [1, 2, 4, 8, 16]  # Exponential backoff` -/
def retry_delays : List Nat := [1, 2, 4, 8, 16]

/-- The body of `for attempt, delay in enumerate(retry_delays[:max_retries], 1)`.
An HTTP 200 returns `True` at once; a status in `[400, 500)` returns `False`
at once; any other outcome falls through, sleeping `delay` when
`attempt < max_retries`, and consumes one attempt. -/
def submitFrom (post : Nat → HttpOutcome) (max_retries : Nat) :
    List (Nat × Nat) → SubmitResult
  | [] => ⟨false, [], 0⟩
  | (attempt, delay) :: rest =>
    match post attempt with
    | .status code =>
      if code = 200 then ⟨true, [], 1⟩
      else if 400 ≤ code ∧ code < 500 then ⟨false, [], 1⟩
      else
        let r := submitFrom post max_retries rest
        ⟨r.ok, (if attempt < max_retries then [delay] else []) ++ r.delays, r.attempts + 1⟩
    | _ =>
      let r := submitFrom post max_retries rest
      ⟨r.ok, (if attempt < max_retries then [delay] else []) ++ r.delays, r.attempts + 1⟩

/-- `submit_to_evaluation(url, data, max_retries=5)`.  `url` and `data` are
passed to `requests.post`, whose outcomes the oracle `post` describes. -/
def submit_to_evaluation (post : Nat → HttpOutcome) (url : String) (data : String)
    (max_retries : Nat) : SubmitResult :=
  let _ := url
  let _ := data
  submitFrom post max_retries (List.enumFrom 1 (retry_delays.take max_retries))

/-! ### `app.py` — request validation (`handle_task`) -/

/-- A JSON value, as produced by `request.get_json()`. -/
inductive JVal where
  | str (s : String)
  | num (n : Int)
  | boolean (b : Bool)
  | null
  | arr (elems : List JVal)
  | obj (fields : List (String × JVal))

/-- Python `v == s` for a JSON value `v` and a string `s`: true exactly when
`v` is that string (comparison with a value of another JSON type is `False`
in Python). -/
def JVal.eqStr : JVal → String → Bool
  | .str a, b => a == b
  | _, _ => false

/-- `required_fields` from `handle_task`. -/
def required_fields : List String :=
  ["email", "secret", "task", "round", "nonce", "brief", "checks", "evaluation_url"]

/-- Result of `handle_task`: the HTTP status returned, and whether a
background `threading.Thread` running `process_task_async` was started.
`process_task_async` is the only writer of the `processing_status` mapping,
so `spawned = false` means no status-tracker entry is ever created for
the request. -/
structure HandleOutcome where
  status : Nat
  spawned : Bool
deriving DecidableEq, Repr

/-- `handle_task`: reject with 400 on the first missing required field,
with 403 when the supplied secret differs from the configured
`SECRET_CODE`, otherwise start the background pipeline and return 200.
(The unreachable lookup failure after validation corresponds to the
outer `except` returning 500.) -/
def handle_task (secret_code : String) (task_data : List (String × JVal)) : HandleOutcome :=
  match required_fields.find? (fun f => (task_data.lookup f).isNone) with
  | some _ => ⟨400, false⟩
  | none =>
    match task_data.lookup "secret" with
    | some v => if v.eqStr secret_code then ⟨200, true⟩ else ⟨403, false⟩
    | none => ⟨500, false⟩

/-! ### `github_manager.py`

The GitHub API is abstracted by `GHEnv`, which records the observable
behaviour of the platform for one publish call: whether `user.create_repo`
raises a `GithubException` (and with which status), whether the update path
fails, whether the `heads/main` ref resp. an individual file already exists,
and the identifiers the platform hands back.  The calls made by
`_create_initial_commit` are collected as a `GitOp` trace. -/

/-- One hosting-platform call made by `_create_initial_commit`. -/
inductive GitOp where
  | createBlob (path content : String)
  | createTree (elements : List (String × String))
  | createCommit (parents : Nat)
  | editRef (refName sha : String)
  | createRef (refName sha : String)
deriving DecidableEq, Repr

/-- Is the operation a mutation of a branch reference? -/
def GitOp.isRefUpdate : GitOp → Bool
  | .editRef .. => true
  | .createRef .. => true
  | _ => false

/-- Observable behaviour of the GitHub platform for one publish call. -/
structure GHEnv where
  /-- `some s` when `user.create_repo` raises `GithubException` with status `s`. -/
  createExc : Option Nat
  /-- `some s` when the update path (`user.get_repo` / file updates) raises
  `GithubException` with status `s`. -/
  updateExc : Option Nat
  /-- Does `repo.get_git_ref("heads/main")` succeed? -/
  refExists : Bool
  /-- Does `repo.get_contents(filename)` succeed for a given path? -/
  fileExists : String → Bool
  /-- `repo.html_url`. -/
  htmlUrl : String
  /-- `repo.get_commits()[0].sha` on the update path. -/
  latestCommit : String
  /-- The sha of the commit produced by `repo.create_git_commit`. -/
  newCommitSha : String
  /-- `self.username`. -/
  username : String

/-- The data-URI guard duplicated verbatim at the top of the per-file loop of
`_create_initial_commit` and of `_update_or_create_file`: a content starting
with `data:` is replaced by a text placeholder and the file is moved under
`attachments/<name>.txt`. -/
def rewriteAttachment (filename content : String) : String × String :=
  if strStartsWith content "data:" then
    ("attachments/" ++ filename ++ ".txt",
     "# " ++ filename ++ "\n\nThis file was provided as an attachment.\nData URI: "
       ++ strTake content 100 ++ "...")
  else (filename, content)

/-- `https://{username}.github.io/{repo_name}/` -/
def pagesUrl (username repo_name : String) : String :=
  "https://" ++ username ++ ".github.io/" ++ repo_name ++ "/"

/-- `_create_initial_commit`: one blob per file (data URIs rewritten), then a
single tree over all collected elements, then a single parentless commit,
then the `main` ref is pointed at it (edited if it exists, created
otherwise).  Returns the call trace and the commit sha. -/
def create_initial_commit (env : GHEnv) (files : List (String × String)) :
    List GitOp × String :=
  let s := files.foldl
    (fun (acc : List GitOp × List (String × String)) fc =>
      let e := rewriteAttachment fc.1 fc.2
      (acc.1 ++ [GitOp.createBlob e.1 e.2], acc.2 ++ [e]))
    ([], [])
  (s.1 ++ [GitOp.createTree s.2, GitOp.createCommit 0,
           if env.refExists then GitOp.editRef "heads/main" env.newCommitSha
           else GitOp.createRef "refs/heads/main" env.newCommitSha],
   env.newCommitSha)

/-- What `_update_or_create_file` publishes for one file: the final path and
content (after the data-URI rewrite) and whether the file was created
(`repo.get_contents` raised 404) or updated in place. -/
structure FilePublish where
  path : String
  content : String
  created : Bool
deriving DecidableEq, Repr

/-- `_update_or_create_file`. -/
def update_or_create_file (env : GHEnv) (filename content : String) : FilePublish :=
  let e := rewriteAttachment filename content
  if env.fileExists e.1 then ⟨e.1, e.2, false⟩ else ⟨e.1, e.2, true⟩

/-- A `GithubException` escaping a publish call, with its HTTP status. -/
inductive PubError where
  | github (status : Nat)
deriving DecidableEq, Repr

/-- `(repo_url, commit_sha, pages_url)`. -/
abbrev PubResult := String × String × String

/-- `update_repo`: fetch the repo (re-raising any platform error), push each
file through `_update_or_create_file`, and return
`(repo.html_url, latest commit sha, pages url)`. -/
def update_repo (env : GHEnv) (repo_name : String) (files : List (String × String)) :
    Except PubError PubResult :=
  match env.updateExc with
  | some s => .error (.github s)
  | none =>
    let _ := files.map (fun fc => update_or_create_file env fc.1 fc.2)
    .ok (env.htmlUrl, env.latestCommit, pagesUrl env.username repo_name)

/-- `create_repo`: create the repository, commit all files, enable pages; a
`GithubException` with status 422 (repository already exists) falls back to
`update_repo`, any other platform error is re-raised. -/
def create_repo (env : GHEnv) (repo_name : String) (files : List (String × String)) :
    Except PubError PubResult :=
  match env.createExc with
  | some s =>
    if s = 422 then update_repo env repo_name files
    else .error (.github s)
  | none =>
    .ok (env.htmlUrl, (create_initial_commit env files).2, pagesUrl env.username repo_name)

/-- Which publication path `process_task_async` entered. -/
inductive PathTag where
  | createPath
  | updatePath
deriving DecidableEq, Repr

/-- The round dispatch in `process_task_async` (lines 55–67 of `app.py`):
round 1 calls `create_repo`, any other round calls `update_repo`. -/
def select_publish (env : GHEnv) (round_num : Nat) (repo_name : String)
    (files : List (String × String)) : PathTag × Except PubError PubResult :=
  if round_num = 1 then (.createPath, create_repo env repo_name files)
  else (.updatePath, update_repo env repo_name files)

/-! ### `app.py` — `process_task_async`

The pipeline writes the coarse step name into `processing_status[task_id]`
at each transition; the first component of the result collects these writes
in order, the second is the final `status` value of the record. -/

/-- External behaviour seen by one pipeline run. -/
structure PipeEnv where
  gh : GHEnv
  /-- Outcome of `generator.generate_app` (exception text or file set). -/
  genResult : Except String (List (String × String))
  /-- Outcome oracle for the reporter's `requests.post` attempts. -/
  post : Nat → HttpOutcome
  /-- `task_data['evaluation_url']`. -/
  evalUrl : String

/-- `process_task_async`: generation, publication (create vs. update chosen
by `round_num`), then result submission; any exception in the first two
stages ends the record in status `error`.  Returns the ordered list of
`step` values written and the final `status` value. -/
def process_task_async (env : PipeEnv) (round_num : Nat) (task_id : String) :
    List String × String :=
  match env.genResult with
  | .error _ => (["initializing", "generating_code"], "error")
  | .ok files =>
    match (select_publish env.gh round_num task_id files).2 with
    | .error _ => (["initializing", "generating_code", "creating_repo"], "error")
    | .ok _ =>
      let success := (submit_to_evaluation env.post env.evalUrl task_id 5).ok
      (["initializing", "generating_code", "creating_repo", "submitting_evaluation", "done"],
       if success then "completed" else "failed")

/-! ### `code_generator.py` — `_process_attachments` and `_create_prompt`

`base64.b64decode(...).decode('utf-8', errors='ignore')` is abstracted by an
oracle `b64 : String → Option String` (`none` = the decode raised).  An
attachment is a `(name, url)` pair. -/

/-- The `info` line appended for one attachment by `_process_attachments`:
a `data:` URI is split at its first comma; base64 payloads are decoded and
previewed (truncated to 200 characters), substituting `[binary data]` when
decoding fails; non-base64 data URIs are previewed raw; a data URI with no
comma contributes nothing; a non-`data:` url is echoed. -/
def attachment_line (b64 : String → Option String) (name url : String) : String :=
  if strStartsWith url "data:" then
    match splitOnceChar ',' url.data with
    | none => ""
    | some parts =>
      let mime_info : String := ⟨parts.1⟩
      let data : String := ⟨parts.2⟩
      if strContainsSub mime_info "base64" then
        match b64 data with
        | some decoded => "- " ++ name ++ ": " ++ strTake decoded 200 ++ "..." ++ "\n"
        | none => "- " ++ name ++ ": [binary data]" ++ "\n"
      else "- " ++ name ++ ": " ++ strTake data 200 ++ "..." ++ "\n"
  else "- " ++ name ++ ": " ++ url ++ "\n"

/-- `_process_attachments`. -/
def process_attachments (b64 : String → Option String)
    (attachments : List (String × String)) : String :=
  match attachments with
  | [] => "No attachments provided."
  | _ =>
    attachments.foldl (fun info att => info ++ attachment_line b64 att.1 att.2)
      "Attachments:\n"

/-- The part of the `_create_prompt` f-string before `{attachments_info}`. -/
def promptHeader (brief : String) (checks : List String) : String :=
  let checks_str := String.intercalate "\n" (checks.map (fun check => "- " ++ check))
  "You are an expert web developer. Create a complete, functional single-page web application based on the following requirements.\n\nBRIEF:\n"
    ++ brief
    ++ "\n\nCHECKS (These will be tested):\n"
    ++ checks_str
    ++ "\n\n"

/-- The part of the `_create_prompt` f-string after `{attachments_info}` (the
source file is cut off right after `Use this format:`). -/
def promptFooter : String :=
  "\n\nREQUIREMENTS:\n1. Create a single HTML file with embedded CSS and JavaScript\n2. Use CDN links for any libraries (Bootstrap, marked, highlight.js, etc.)\n3. Make the code clean, well-commented, and professional\n4. Ensure ALL checks will pass\n5. If attachments are provided as data URIs, embed them directly in the code or fetch them\n6. The app should be fully functional and production-ready\n7. Handle errors gracefully\n8. Use modern ES6+ JavaScript\n\nOUTPUT FORMAT:\nProvide the complete HTML file content. Start with <!DOCTYPE html> and include everything in a single file.\nAfter the HTML file, if needed, provide a README.md with:\n- Project title and description\n- Features\n- How to use\n- Code structure explanation\n- Technologies used\n\nUse this format:"

/-- `_create_prompt`. -/
def create_prompt (brief : String) (checks : List String) (attachments_info : String) :
    String :=
  promptHeader brief checks ++ attachments_info ++ promptFooter

/-- Modelled from the spec: the attachment-injection step of
`_parse_response` (the source file `code_generator.py` is truncated before
this function).  "injects each attachment whose identifier is an inline data
URI as its own file (content = the raw data URI, keyed by the attachment's
given name) ... This step is purely additive — existing generator-produced
files of the same name are never overwritten." -/
def inject_attachments (files : List (String × String)) :
    List (String × String) → List (String × String)
  | [] => files
  | att :: rest =>
    inject_attachments
      (if strStartsWith att.2 "data:" = true ∧ att.1 ∉ files.map Prod.fst then
        files ++ [att]
      else files) rest

/-! ### `code_generator.py` — the delimiter parser of `_parse_response`

Modelled from the spec (the source file is truncated before
`_parse_response`): "a line consisting of `=== <filename> ===` opens a new
file section; all subsequent lines belong to that file until the next
delimiter or end of input; a file's content is the delimited lines with
leading/trailing blank lines trimmed."  Parsed sections are collected into a
Python-dict-like association list (assignment to an existing key replaces
its value in place).  Text is split into lines at `'\n'`. -/

/-- One `foldr` step of line splitting: a newline opens a new (empty) line in
front, any other character is prepended to the current first line. -/
def lineStep (c : Char) (acc : List (List Char)) : List (List Char) :=
  if c = '\n' then [] :: acc
  else
    match acc with
    | [] => [[c]]
    | g :: gs => (c :: g) :: gs

/-- Split a character list at newlines (Python `s.split('\n')`). -/
def splitLinesChars (cs : List Char) : List (List Char) := cs.foldr lineStep [[]]

/-- Join lines with newlines (Python `'\n'.join(lines)`). -/
def joinLinesChars : List (List Char) → List Char
  | [] => []
  | [g] => g
  | g :: gs => g ++ '\n' :: joinLinesChars gs

/-- Split a string into its lines. -/
def splitLines (s : String) : List String := (splitLinesChars s.data).map String.mk

/-- Join lines into a string. -/
def joinLines (ls : List String) : String := ⟨joinLinesChars (ls.map String.data)⟩

/-- A line is blank when it consists of whitespace only. -/
def isBlankLine (l : String) : Bool := (trimChars l.data).isEmpty

/-- Trim leading and trailing blank lines of a section. -/
def trimBlankLines (ls : List String) : List String := dropEnds isBlankLine ls

/-- Does the line have the shape `=== <filename> ===`? -/
def isDelimLine (l : String) : Bool :=
  "=== ".data.isPrefixOf l.data && " ===".data.isSuffixOf l.data
    && decide (8 ≤ l.data.length)

/-- The filename carried by a delimiter line (the text between the markers,
stripped). -/
def delimName (l : String) : String :=
  ⟨trimChars ((l.data.drop 4).take (l.data.length - 8))⟩

/-- The delimiter line for a filename. -/
def mkDelimLine (n : String) : String := "=== " ++ n ++ " ==="

/-- Dict assignment `files[n] = c`: replace the value in place when the key
exists, append the pair otherwise. -/
def insertFile (m : List (String × String)) (n c : String) : List (String × String) :=
  if m.any (fun e => e.1 == n) then
    m.map (fun e => if e.1 == n then (n, c) else e)
  else m ++ [(n, c)]

/-- Close the current section: its content is the accumulated lines (held in
reverse) with leading/trailing blank lines trimmed, joined back into a
string. -/
def flushFile (acc : List (String × String)) (n : String) (revLines : List String) :
    List (String × String) :=
  insertFile acc n (joinLines (trimBlankLines revLines.reverse))

/-- The delimiter scanner: walk the lines, opening a section at each
delimiter line, accumulating content lines of the currently open section
(lines before the first delimiter belong to no section and are dropped),
and flushing the open section at the next delimiter or end of input. -/
def parseGo : List String → Option (String × List String) → List (String × String) →
    List (String × String)
  | [], none, acc => acc
  | [], some nc, acc => flushFile acc nc.1 nc.2
  | l :: rest, none, acc =>
    if isDelimLine l then parseGo rest (some (delimName l, [])) acc
    else parseGo rest none acc
  | l :: rest, some nc, acc =>
    if isDelimLine l then parseGo rest (some (delimName l, [])) (flushFile acc nc.1 nc.2)
    else parseGo rest (some (nc.1, l :: nc.2)) acc

/-- Parse a completion's lines into the file mapping. -/
def parseFiles (ls : List String) : List (String × String) := parseGo ls none []

/-- The delimiter parser on a completion string (when no delimiter occurs
anywhere the scanner yields the empty mapping and the caller falls back to
treating the whole completion as a single file; that fallback is outside
this parser). -/
def parse_response_files (s : String) : List (String × String) :=
  parseFiles (splitLines s)

/-- Serialize a file mapping back with the same delimiter convention:
`=== <filename> ===` followed by the file's content, sections joined with
newlines. -/
def serializeChunks : List (String × String) → List String
  | [] => []
  | e :: m => mkDelimLine e.1 :: e.2 :: serializeChunks m

/-- Serialization of a file mapping to a completion string. -/
def serialize_files (m : List (String × String)) : String :=
  joinLines (serializeChunks m)

/-! ### Sample environments used by the concrete instantiations below -/

/-- A platform behaviour where everything succeeds. -/
def sampleGH : GHEnv :=
  ⟨none, none, true, fun _ => false, "https://github.com/u/t", "abc", "def", "u"⟩

/-- A platform behaviour where `user.create_repo` raises a 422
(repository already exists). -/
def sampleGH422 : GHEnv :=
  ⟨some 422, none, true, fun _ => false, "https://github.com/u/t", "abc", "def", "u"⟩

/-- A pipeline environment where every stage succeeds. -/
def samplePipe : PipeEnv :=
  ⟨sampleGH, .ok [("index.html", "<html></html>")], fun _ => .status 200, "http://cb"⟩

/-- A task request with all required fields but a wrong secret. -/
def tdBadSecret : List (String × JVal) :=
  [("email", .str "e"), ("secret", .str "bad"), ("task", .str "t"),
   ("round", .num 1), ("nonce", .str "n"), ("brief", .str "b"),
   ("checks", .arr []), ("evaluation_url", .str "u")]

/-- A base64 decoding oracle knowing one payload. -/
def b64Sample : String → Option String :=
  fun s => if s = "QUJD" then some "ABC" else none

/-! ### Canonical shapes of parsed file mappings

Auxiliary predicates describing the mappings the delimiter scanner can
produce; they drive the round-trip proof. -/

/-- A parsed filename: stripped, and free of newlines (it came from a single
line). -/
def goodName (n : String) : Prop := trimChars n.data = n.data ∧ '\n' ∉ n.data

/-- A parsed file content: re-splitting it into lines, trimming blank lines
and re-joining gives it back, and none of its lines is a delimiter line. -/
def goodContent (c : String) : Prop :=
  joinLines (trimBlankLines (splitLines c)) = c ∧
    ∀ l ∈ splitLines c, isDelimLine l = false

/-- A canonical file mapping: every entry is canonical and keys are unique. -/
def goodMap (m : List (String × String)) : Prop :=
  (∀ e ∈ m, goodName e.1 ∧ goodContent e.2) ∧ (m.map Prod.fst).Nodup

/-- The line sequence `serialize_files` produces, section by section. -/
def parsedChunks : List (String × String) → List String
  | [] => []
  | e :: m => mkDelimLine e.1 :: (splitLines e.2 ++ parsedChunks m)

/-! ## Theorems -/

/-! ### Reporter (`submit_to_evaluation`) -/

theorem submitFrom_attempts_le (post : Nat → HttpOutcome) (m : Nat) :
    ∀ l : List (Nat × Nat), (submitFrom post m l).attempts ≤ l.length := by
  intro l
  induction l with
  | nil => simp [submitFrom]
  | cons hd tl ih =>
    obtain ⟨a, d⟩ := hd
    simp only [submitFrom, List.length_cons]
    cases post a with
    | status code =>
      by_cases h200 : code = 200
      · simp [h200]
      · by_cases h4xx : 400 ≤ code ∧ code < 500
        · simp [h200, h4xx]
        · simp only [h200, h4xx, if_false]
          omega
    | timeout => simp only; omega
    | connError => simp only; omega

/-- C2: for every callback URL, payload and `max_retries`, the reporter is a
total function returning a `SubmitResult` (its `ok` field is the boolean the
Python function returns; it never raises).  On each attempt: an HTTP 200
response terminates immediately with `True` and no further attempt or sleep;
a status in `[400, 500)` terminates immediately with `False` and no further
attempt or sleep; a status ≥ 500, a timeout, or a connection error is
retryable — it consumes exactly one attempt, sleeps the scheduled delay when
attempts remain, and continues with the rest of the schedule. -/
theorem submit_attempt_classification (post : Nat → HttpOutcome) (url data : String)
    (m a d : Nat) (rest : List (Nat × Nat)) :
    (submit_to_evaluation post url data m
      = submitFrom post m (List.enumFrom 1 (retry_delays.take m))) ∧
    (post a = .status 200 → submitFrom post m ((a, d) :: rest) = ⟨true, [], 1⟩) ∧
    (∀ c, post a = .status c → 400 ≤ c → c < 500 →
      submitFrom post m ((a, d) :: rest) = ⟨false, [], 1⟩) ∧
    (∀ c, post a = .status c → 500 ≤ c →
      submitFrom post m ((a, d) :: rest)
        = ⟨(submitFrom post m rest).ok,
           (if a < m then [d] else []) ++ (submitFrom post m rest).delays,
           (submitFrom post m rest).attempts + 1⟩) ∧
    (post a = .timeout →
      submitFrom post m ((a, d) :: rest)
        = ⟨(submitFrom post m rest).ok,
           (if a < m then [d] else []) ++ (submitFrom post m rest).delays,
           (submitFrom post m rest).attempts + 1⟩) ∧
    (post a = .connError →
      submitFrom post m ((a, d) :: rest)
        = ⟨(submitFrom post m rest).ok,
           (if a < m then [d] else []) ++ (submitFrom post m rest).delays,
           (submitFrom post m rest).attempts + 1⟩) := by
  refine ⟨rfl, ?_, ?_, ?_, ?_, ?_⟩
  · intro h
    simp [submitFrom, h]
  · intro c h h1 h2
    have hne : ¬(c = 200) := by omega
    simp [submitFrom, h, hne, h1, h2]
  · intro c h h5
    have hne : ¬(c = 200) := by omega
    have hn4 : ¬(400 ≤ c ∧ c < 500) := by omega
    simp [submitFrom, h, hne, hn4]
  · intro h
    simp [submitFrom, h]
  · intro h
    simp [submitFrom, h]

theorem submit_attempt_classification_check :
    submitFrom (fun _ => .status 200) 5 [(1, 1)] = ⟨true, [], 1⟩ ∧
    submitFrom (fun _ => .status 404) 5 [(1, 1)] = ⟨false, [], 1⟩ ∧
    submitFrom (fun _ => .status 503) 5 [(1, 1)] = ⟨false, [1], 1⟩ ∧
    submitFrom (fun _ => .timeout) 5 [(1, 1)] = ⟨false, [1], 1⟩ := by
  refine ⟨(submit_attempt_classification _ "u" "d" 5 1 1 []).2.1 rfl,
          (submit_attempt_classification _ "u" "d" 5 1 1 []).2.2.1 404 rfl
            (by decide) (by decide),
          ?_, ?_⟩
  · have h := (submit_attempt_classification (fun _ => .status 503) "u" "d" 5 1 1
      []).2.2.2.1 503 rfl (by decide)
    simpa [submitFrom] using h
  · have h := (submit_attempt_classification (fun _ => .timeout) "u" "d" 5 1 1
      []).2.2.2.2.1 rfl
    simpa [submitFrom] using h

/-- C3: the delay schedule is `[1, 2, 4, 8, 16]`, indexed by attempt number.
With the default `max_retries = 5`: a server answering 500 on the first
three attempts and 200 on the fourth gives exactly the three sleeps
1 s, 2 s, 4 s and the call returns `True`; a server always answering 400
gives exactly one attempt, no sleep, and `False`; a server that never
answers 200 exhausts all five attempts and returns `False`. -/
theorem reporter_retry_schedule :
    submit_to_evaluation (fun n => if n ≤ 3 then .status 500 else .status 200) "u" "d" 5
      = ⟨true, [1, 2, 4], 4⟩ ∧
    submit_to_evaluation (fun _ => .status 400) "u" "d" 5 = ⟨false, [], 1⟩ ∧
    submit_to_evaluation (fun _ => .status 500) "u" "d" 5 = ⟨false, [1, 2, 4, 8], 5⟩ := by
  refine ⟨?_, ?_, ?_⟩ <;> rfl

/-- C10: the attempt loop iterates over `retry_delays[:max_retries]`, a slice
of the fixed five-element delay list, so `max_retries > 5` still yields at
most 5 attempts; and `max_retries = 0` returns `False` without any attempt
(and without any sleep). -/
theorem submit_attempts_capped (post : Nat → HttpOutcome) (url data : String)
    (m : Nat) (hm : 5 < m) :
    (submit_to_evaluation post url data m).attempts ≤ 5 ∧
    submit_to_evaluation post url data 0 = ⟨false, [], 0⟩ := by
  constructor
  · have h := submitFrom_attempts_le post m (List.enumFrom 1 (retry_delays.take m))
    have hlen : (List.enumFrom 1 (retry_delays.take m)).length ≤ 5 := by
      simp [List.enumFrom_length, List.length_take, retry_delays]
    exact le_trans h hlen
  · rfl

theorem submit_attempts_capped_app :
    (submit_to_evaluation (fun _ => .status 500) "u" "d" 7).attempts ≤ 5 :=
  (submit_attempts_capped (fun _ => .status 500) "u" "d" 7 (by decide)).1

/-! ### Round dispatch and the 422 fallback (`app.py` / `github_manager.py`) -/

/-- C1: `process_task_async` publishes through `create_repo` exactly when the
round number is 1 and through `update_repo` when it is greater than 1; and
when `user.create_repo` raises a `GithubException` with status 422 (target
already exists), `create_repo` returns precisely the result of
`update_repo` — a `(repo_url, commit_sha, pages_url)` triple of the same
shape as a genuine update. -/
theorem round_selects_publication_path (env : GHEnv) (round_num : Nat)
    (repo_name : String) (files : List (String × String)) :
    (round_num = 1 →
      select_publish env round_num repo_name files
        = (.createPath, create_repo env repo_name files)) ∧
    (1 < round_num →
      select_publish env round_num repo_name files
        = (.updatePath, update_repo env repo_name files)) ∧
    (env.createExc = some 422 →
      create_repo env repo_name files = update_repo env repo_name files) := by
  refine ⟨?_, ?_, ?_⟩
  · intro h
    simp [select_publish, h]
  · intro h
    have hne : ¬(round_num = 1) := by omega
    simp [select_publish, hne]
  · intro h
    simp [create_repo, h]

theorem round_selects_publication_path_app :
    select_publish sampleGH422 1 "t" [] = (.createPath, create_repo sampleGH422 "t" []) ∧
    select_publish sampleGH422 2 "t" [] = (.updatePath, update_repo sampleGH422 "t" []) ∧
    create_repo sampleGH422 "t" [] = update_repo sampleGH422 "t" [] :=
  ⟨(round_selects_publication_path sampleGH422 1 "t" []).1 rfl,
   (round_selects_publication_path sampleGH422 2 "t" []).2.1 (by decide),
   (round_selects_publication_path sampleGH422 1 "t" []).2.2 rfl⟩

/-! ### Request validation (`handle_task`) -/

/-- C4: a task request missing any required field is rejected with 400, and
one whose secret does not equal the configured secret is rejected with 403;
in both cases no background thread is spawned (`spawned = false`), and since
`process_task_async` is the only writer of the `processing_status` mapping,
no status-tracker entry is created. -/
theorem handle_task_rejects_invalid (secret_code : String)
    (td : List (String × JVal)) :
    ((∃ f ∈ required_fields, td.lookup f = none) →
      handle_task secret_code td = ⟨400, false⟩) ∧
    (∀ v, (∀ f ∈ required_fields, (td.lookup f).isSome) →
      td.lookup "secret" = some v → v ≠ JVal.str secret_code →
      handle_task secret_code td = ⟨403, false⟩) := by
  constructor
  · rintro ⟨f, hf, hnone⟩
    have hs : (required_fields.find? (fun f => (td.lookup f).isNone)).isSome := by
      rw [List.find?_isSome]
      exact ⟨f, hf, by simp [hnone]⟩
    obtain ⟨g, hg⟩ := Option.isSome_iff_exists.mp hs
    simp [handle_task, hg]
  · intro v hall hsec hne
    have hn : required_fields.find? (fun f => (td.lookup f).isNone) = none := by
      rw [List.find?_eq_none]
      intro f hf
      simpa using hall f hf
    have heq : v.eqStr secret_code = false := by
      cases v with
      | str a =>
        have ha : a ≠ secret_code := fun h => hne (by rw [h])
        simpa [JVal.eqStr] using ha
      | num n => rfl
      | boolean b => rfl
      | null => rfl
      | arr es => rfl
      | obj fs => rfl
    simp [handle_task, hn, hsec, heq]

theorem handle_task_rejects_invalid_app :
    handle_task "sec" [] = ⟨400, false⟩ ∧
    handle_task "sec" tdBadSecret = ⟨403, false⟩ :=
  ⟨(handle_task_rejects_invalid "sec" []).1 ⟨"email", by decide, rfl⟩,
   (handle_task_rejects_invalid "sec" tdBadSecret).2 (.str "bad") (by decide) rfl
     (fun h => absurd (JVal.str.inj h) (by decide))⟩

/-! ### Create-path commit ordering (`_create_initial_commit`) -/

theorem create_initial_commit_ops (env : GHEnv) (files : List (String × String)) :
    (create_initial_commit env files).1
      = files.map (fun fc => GitOp.createBlob (rewriteAttachment fc.1 fc.2).1
            (rewriteAttachment fc.1 fc.2).2)
        ++ [GitOp.createTree (files.map fun fc => rewriteAttachment fc.1 fc.2),
            GitOp.createCommit 0,
            if env.refExists then GitOp.editRef "heads/main" env.newCommitSha
            else GitOp.createRef "refs/heads/main" env.newCommitSha] := by
  have h : ∀ (fs : List (String × String)) (ops : List GitOp)
      (els : List (String × String)),
      fs.foldl (fun (acc : List GitOp × List (String × String)) fc =>
          let e := rewriteAttachment fc.1 fc.2
          (acc.1 ++ [GitOp.createBlob e.1 e.2], acc.2 ++ [e])) (ops, els)
        = (ops ++ fs.map (fun fc => GitOp.createBlob (rewriteAttachment fc.1 fc.2).1
             (rewriteAttachment fc.1 fc.2).2),
           els ++ fs.map fun fc => rewriteAttachment fc.1 fc.2) := by
    intro fs
    induction fs with
    | nil => intro ops els; simp
    | cons hd tl ih =>
      intro ops els
      simp only [List.foldl_cons, List.map_cons]
      rw [ih]
      simp
  simp [create_initial_commit, h]

/-- C5: on the create path the platform calls happen in the order
blob* ⇒ tree ⇒ commit ⇒ ref: one blob per file, then a single tree over all
elements, then a single parentless commit, and the very last operation —
the only reference mutation in the whole trace — points the `main` branch at
that commit, editing the ref when it exists and creating it otherwise.  (No
intermediate state is reachable through the branch: readers resolve content
through the ref, which changes in one final step.) -/
theorem create_commit_call_order (env : GHEnv) (files : List (String × String)) :
    (create_initial_commit env files).1
      = files.map (fun fc => GitOp.createBlob (rewriteAttachment fc.1 fc.2).1
            (rewriteAttachment fc.1 fc.2).2)
        ++ [GitOp.createTree (files.map fun fc => rewriteAttachment fc.1 fc.2),
            GitOp.createCommit 0,
            if env.refExists then GitOp.editRef "heads/main" env.newCommitSha
            else GitOp.createRef "refs/heads/main" env.newCommitSha] ∧
    (create_initial_commit env files).1.getLast?
      = some (if env.refExists then GitOp.editRef "heads/main" env.newCommitSha
              else GitOp.createRef "refs/heads/main" env.newCommitSha) ∧
    (create_initial_commit env files).1.countP GitOp.isRefUpdate = 1 ∧
    (create_initial_commit env files).1.dropLast.countP GitOp.isRefUpdate = 0 := by
  have hops := create_initial_commit_ops env files
  have hsplit : (create_initial_commit env files).1
      = (files.map (fun fc => GitOp.createBlob (rewriteAttachment fc.1 fc.2).1
            (rewriteAttachment fc.1 fc.2).2)
         ++ [GitOp.createTree (files.map fun fc => rewriteAttachment fc.1 fc.2),
             GitOp.createCommit 0])
        ++ [if env.refExists then GitOp.editRef "heads/main" env.newCommitSha
            else GitOp.createRef "refs/heads/main" env.newCommitSha] := by
    rw [hops]; simp
  have hblobs : (files.map (fun fc => GitOp.createBlob (rewriteAttachment fc.1 fc.2).1
      (rewriteAttachment fc.1 fc.2).2)).countP GitOp.isRefUpdate = 0 := by
    rw [List.countP_eq_zero]
    intro a ha
    obtain ⟨fc, _, rfl⟩ := List.mem_map.mp ha
    simp [GitOp.isRefUpdate]
  have hrefop : GitOp.isRefUpdate
      (if env.refExists then GitOp.editRef "heads/main" env.newCommitSha
       else GitOp.createRef "refs/heads/main" env.newCommitSha) = true := by
    cases env.refExists <;> simp [GitOp.isRefUpdate]
  refine ⟨hops, ?_, ?_, ?_⟩
  · rw [hsplit, List.getLast?_concat]
  · rw [hsplit]
    simp only [List.countP_append, List.countP_cons, hblobs]
    cases env.refExists <;> simp [GitOp.isRefUpdate]
  · rw [hsplit, List.dropLast_concat]
    simp [List.countP_append, List.countP_cons, hblobs, GitOp.isRefUpdate]

/-! ### Data-URI placeholder rewriting (`github_manager.py`, both paths) -/

theorem strStartsWith_data (s p : String) (h : strStartsWith s p = true) :
    ∃ t, s.data = p.data ++ t := by
  have h' : p.data.isPrefixOf s.data = true := h
  obtain ⟨t, ht⟩ := ( List.isPrefixOf_iff_prefix).mp h'
  exact ⟨t, ht.symm⟩

/-- C6: on both the create path (`_create_initial_commit`) and the update
path (`_update_or_create_file`), a file whose content starts with `data:`
is never published raw: the published content is the text placeholder
`# <name> … Data URI: <first 100 characters>...` (which differs from the
original content), and the file is stored at `attachments/<name>.txt`. -/
theorem data_uri_never_published_raw (filename content : String)
    (h : strStartsWith content "data:" = true) (env : GHEnv)
    (files : List (String × String)) :
    rewriteAttachment filename content
      = ("attachments/" ++ filename ++ ".txt",
         "# " ++ filename ++ "\n\nThis file was provided as an attachment.\nData URI: "
           ++ strTake content 100 ++ "...") ∧
    (rewriteAttachment filename content).2 ≠ content ∧
    (update_or_create_file env filename content).path
      = "attachments/" ++ filename ++ ".txt" ∧
    (update_or_create_file env filename content).content
      = (rewriteAttachment filename content).2 ∧
    ((filename, content) ∈ files →
      GitOp.createBlob ("attachments/" ++ filename ++ ".txt")
          (rewriteAttachment filename content).2
        ∈ (create_initial_commit env files).1) := by
  have hpair : rewriteAttachment filename content
      = ("attachments/" ++ filename ++ ".txt",
         "# " ++ filename ++ "\n\nThis file was provided as an attachment.\nData URI: "
           ++ strTake content 100 ++ "...") := by
    simp [rewriteAttachment, h]
  refine ⟨hpair, ?_, ?_, ?_, ?_⟩
  · intro hcontra
    obtain ⟨t, ht⟩ := strStartsWith_data content "data:" h
    have hdata := congrArg String.data hcontra
    rw [hpair, ht] at hdata
    simp [String.data_append] at hdata
  · simp only [update_or_create_file, hpair]
    split <;> rfl
  · simp only [update_or_create_file, hpair]
    split <;> rfl
  · intro hmem
    rw [create_initial_commit_ops]
    apply List.mem_append_left
    have := List.mem_map_of_mem
      (fun fc : String × String => GitOp.createBlob (rewriteAttachment fc.1 fc.2).1
        (rewriteAttachment fc.1 fc.2).2) hmem
    simpa [hpair] using this

theorem data_uri_never_published_raw_app :
    (rewriteAttachment "data.csv" "data:text/csv;base64,QUJD").2
        ≠ "data:text/csv;base64,QUJD" ∧
    (update_or_create_file sampleGH "data.csv" "data:text/csv;base64,QUJD").path
        = "attachments/" ++ "data.csv" ++ ".txt" :=
  ⟨(data_uri_never_published_raw "data.csv" "data:text/csv;base64,QUJD" (by decide)
      sampleGH []).2.1,
   (data_uri_never_published_raw "data.csv" "data:text/csv;base64,QUJD" (by decide)
      sampleGH []).2.2.1⟩

/-! ### Status-tracker step names (`process_task_async`) -/

/-- C8 (counterexample): on a round-2 run the update path is taken, yet the
recorded step trace is `initializing, generating_code, creating_repo,
submitting_evaluation, done` — the step value `updating_repo` is never
recorded (line 47 of `app.py` writes `creating_repo` unconditionally,
before the round dispatch). -/
theorem round2_step_trace_lacks_updating_repo :
    (process_task_async samplePipe 2 "task-1").1
      = ["initializing", "generating_code", "creating_repo",
         "submitting_evaluation", "done"] ∧
    "updating_repo" ∉ (process_task_async samplePipe 2 "task-1").1 ∧
    (select_publish samplePipe.gh 2 "task-1" [("index.html", "<html></html>")]).1
      = PathTag.updatePath := by
  exact ⟨rfl, by decide, rfl⟩

/-- C8 (amended): at every pipeline transition the tracker records the coarse
step name, and the recorded value is always one of `initializing`,
`generating_code`, `creating_repo`, `submitting_evaluation`, `done` — with
`creating_repo` recorded before the publication stage on create-path *and*
update-path runs alike; the value `updating_repo` is never recorded. -/
theorem step_names_closed_set (env : PipeEnv) (round_num : Nat) (task_id : String) :
    ((process_task_async env round_num task_id).1.all
      (fun s => ["initializing", "generating_code", "creating_repo",
                 "submitting_evaluation", "done"].contains s)) = true ∧
    "updating_repo" ∉ (process_task_async env round_num task_id).1 := by
  have htrace : (process_task_async env round_num task_id).1
        = ["initializing", "generating_code"] ∨
      (process_task_async env round_num task_id).1
        = ["initializing", "generating_code", "creating_repo"] ∨
      (process_task_async env round_num task_id).1
        = ["initializing", "generating_code", "creating_repo",
           "submitting_evaluation", "done"] := by
    obtain ⟨gh, genR, post, evalUrl⟩ := env
    unfold process_task_async
    cases genR with
    | error e => exact Or.inl rfl
    | ok files =>
      dsimp only
      cases hsel : (select_publish gh round_num task_id files).2 with
      | error e => exact Or.inr (Or.inl rfl)
      | ok r => exact Or.inr (Or.inr rfl)
  rcases htrace with h | h | h <;> rw [h] <;> exact ⟨by decide, by decide⟩

/-! ### Attachment previews and injection (`_process_attachments` / `_parse_response`) -/

theorem isPrefixOf_self_append (p t : List Char) : p.isPrefixOf (p ++ t) = true := by
  rw [ List.isPrefixOf_iff_prefix]
  exact List.prefix_append p t

theorem containsSeq_here (p l : List Char) (h : p.isPrefixOf l = true) :
    containsSeq p l = true := by
  cases l with
  | nil =>
    cases p with
    | nil => rfl
    | cons c cs => simp [List.isPrefixOf] at h
  | cons c rest => simp [containsSeq, h]

theorem containsSeq_cons (p : List Char) (c : Char) (l : List Char)
    (h : containsSeq p l = true) : containsSeq p (c :: l) = true := by
  simp [containsSeq, h]

theorem containsSeq_of_middle (p a b : List Char) : containsSeq p (a ++ (p ++ b)) = true := by
  induction a with
  | nil => exact containsSeq_here _ _ (isPrefixOf_self_append p b)
  | cons c a' ih => exact containsSeq_cons _ _ _ ih

theorem containsSeq_append_left (p x l : List Char) (h : containsSeq p l = true) :
    containsSeq p (x ++ l) = true := by
  induction x with
  | nil => exact h
  | cons c x' ih => exact containsSeq_cons _ _ _ ih

theorem strContainsSub_of_decomp (s pat : String) (a b : List Char)
    (h : s.data = a ++ (pat.data ++ b)) : strContainsSub s pat = true := by
  unfold strContainsSub
  rw [h]
  exact containsSeq_of_middle _ _ _

theorem splitOnceChar_no_sep_append (sep : Char) (a b : List Char) (h : sep ∉ a) :
    splitOnceChar sep (a ++ sep :: b) = some (a, b) := by
  induction a with
  | nil => simp [splitOnceChar]
  | cons c a' ih =>
    have hc : (c == sep) = false := by
      simp only [beq_eq_false_iff_ne]
      intro hcc
      exact h (hcc ▸ List.mem_cons_self c a')
    have ih' := ih (fun hm => h (List.mem_cons_of_mem c hm))
    simp [splitOnceChar, hc, ih']

theorem create_prompt_contains (brief : String) (checks : List String)
    (info pat : String) (u v : List Char) (huv : info.data = u ++ (pat.data ++ v)) :
    strContainsSub (create_prompt brief checks info) pat = true := by
  apply strContainsSub_of_decomp _ _ ((promptHeader brief checks).data ++ u)
    (v ++ promptFooter.data)
  have hshape : create_prompt brief checks info
      = (promptHeader brief checks ++ info) ++ promptFooter := rfl
  rw [hshape]
  simp [String.data_append, huv, List.append_assoc]

theorem foldl_data_pref (f : α → String) :
    ∀ (l : List α) (s : String),
      ∃ w, (l.foldl (fun acc y => acc ++ f y) s).data = s.data ++ w := by
  intro l
  induction l with
  | nil => intro s; exact ⟨[], by simp⟩
  | cons hd tl ih =>
    intro s
    obtain ⟨w, hw⟩ := ih (s ++ f hd)
    refine ⟨(f hd).data ++ w, ?_⟩
    rw [List.foldl_cons, hw]
    simp [String.data_append, List.append_assoc]

theorem foldl_concat_decomp (f : α → String) :
    ∀ (l : List α) (x : α), x ∈ l → ∀ init : String,
      ∃ u v : List Char,
        (l.foldl (fun acc y => acc ++ f y) init).data = u ++ ((f x).data ++ v) := by
  intro l
  induction l with
  | nil => intro x hx; cases hx
  | cons hd tl ih =>
    intro x hx init
    rcases List.mem_cons.mp hx with h | h
    · subst h
      obtain ⟨w, hw⟩ := foldl_data_pref f tl (init ++ f x)
      refine ⟨init.data, w, ?_⟩
      rw [List.foldl_cons, hw]
      simp [String.data_append, List.append_assoc]
    · obtain ⟨u, v, huv⟩ := ih x h (init ++ f hd)
      exact ⟨u, v, by rw [List.foldl_cons]; exact huv⟩

theorem process_attachments_decomp (b64 : String → Option String)
    (atts : List (String × String)) (x : String × String) (hx : x ∈ atts) :
    ∃ u v, (process_attachments b64 atts).data
      = u ++ ((attachment_line b64 x.1 x.2).data ++ v) := by
  cases atts with
  | nil => cases hx
  | cons hd tl =>
    exact foldl_concat_decomp (fun att => attachment_line b64 att.1 att.2)
      (hd :: tl) x hx "Attachments:\n"

theorem attachment_line_base64 (b64 : String → Option String)
    (name mime payload : String) (hb64 : strContainsSub mime "base64" = true)
    (hcomma : ',' ∉ mime.data) :
    attachment_line b64 name ("data:" ++ mime ++ "," ++ payload)
      = match b64 payload with
        | some decoded => "- " ++ name ++ ": " ++ strTake decoded 200 ++ "..." ++ "\n"
        | none => "- " ++ name ++ ": [binary data]" ++ "\n" := by
  have hurl : ("data:" ++ mime ++ "," ++ payload).data
      = ("data:".data ++ mime.data) ++ (',' :: payload.data) := by
    simp [String.data_append]
  have hstart : strStartsWith ("data:" ++ mime ++ "," ++ payload) "data:" = true := by
    unfold strStartsWith
    rw [hurl, List.append_assoc]
    exact isPrefixOf_self_append _ _
  have hsplit : splitOnceChar ',' ("data:" ++ mime ++ "," ++ payload).data
      = some ("data:".data ++ mime.data, payload.data) := by
    rw [hurl]
    apply splitOnceChar_no_sep_append
    intro hc
    rcases List.mem_append.mp hc with h | h
    · exact absurd h (by decide)
    · exact hcomma h
  have hmime : strContainsSub ⟨"data:".data ++ mime.data⟩ "base64" = true := by
    unfold strContainsSub at hb64 ⊢
    exact containsSeq_append_left _ _ _ hb64
  simp only [attachment_line, hstart, if_true, hsplit, hmime]

theorem inject_preserves :
    ∀ (atts fs : List (String × String)) (x : String × String),
      x ∈ fs → x ∈ inject_attachments fs atts := by
  intro atts
  induction atts with
  | nil => intro fs x hx; exact hx
  | cons a rest ih =>
    intro fs x hx
    have hstep : inject_attachments fs (a :: rest)
        = inject_attachments
            (if strStartsWith a.2 "data:" = true ∧ a.1 ∉ fs.map Prod.fst
             then fs ++ [a] else fs) rest := rfl
    rw [hstep]
    refine ih _ x ?_
    split
    · exact List.mem_append_left _ hx
    · exact hx

theorem inject_adds :
    ∀ (atts fs : List (String × String)) (name url : String),
      (name, url) ∈ atts → strStartsWith url "data:" = true →
      name ∉ fs.map Prod.fst → (atts.map Prod.fst).Nodup →
      (name, url) ∈ inject_attachments fs atts := by
  intro atts
  induction atts with
  | nil =>
    intro fs name url h
    cases h
  | cons a rest ih =>
    intro fs name url hmem hdata hfresh hnodup
    have hstep : inject_attachments fs (a :: rest)
        = inject_attachments
            (if strStartsWith a.2 "data:" = true ∧ a.1 ∉ fs.map Prod.fst
             then fs ++ [a] else fs) rest := rfl
    rw [hstep]
    rw [List.map_cons] at hnodup
    rcases List.mem_cons.mp hmem with h | h
    · subst h
      rw [if_pos ⟨hdata, hfresh⟩]
      exact inject_preserves rest _ _ (List.mem_append_right _ (by simp))
    · have hane : a.1 ≠ name := by
        have h1 : a.1 ∉ rest.map Prod.fst := (List.nodup_cons.mp hnodup).1
        intro hcc
        exact h1 (hcc ▸ List.mem_map.mpr ⟨(name, url), h, rfl⟩)
      refine ih _ name url h hdata ?_ (List.nodup_cons.mp hnodup).2
      split
      · rw [List.map_append]
        intro hc
        rcases List.mem_append.mp hc with hc | hc
        · exact hfresh hc
        · simp only [List.map_cons, List.map_nil, List.mem_singleton] at hc
          exact hane hc.symm
      · exact hfresh

/-- C9: for every attachment supplied as an inline base64 data URI
`data:<mime;base64>,<payload>`, the generation prompt built by
`_create_prompt` contains the line `- <name>: <decoded preview truncated to
200 characters>...` when `base64.b64decode` succeeds, and
`- <name>: [binary data]` when it fails; and the file set produced by the
response parser contains the raw data URI verbatim, keyed by the
attachment's given name. -/
theorem attachment_preview_and_injection (b64 : String → Option String)
    (brief : String) (checks : List String) (atts : List (String × String))
    (name mime payload : String)
    (hmem : (name, "data:" ++ mime ++ "," ++ payload) ∈ atts)
    (hb64 : strContainsSub mime "base64" = true)
    (hcomma : ',' ∉ mime.data) :
    (∀ decoded, b64 payload = some decoded →
      strContainsSub (create_prompt brief checks (process_attachments b64 atts))
        ("- " ++ name ++ ": " ++ strTake decoded 200 ++ "...") = true) ∧
    (b64 payload = none →
      strContainsSub (create_prompt brief checks (process_attachments b64 atts))
        ("- " ++ name ++ ": [binary data]") = true) ∧
    (∀ files : List (String × String),
      name ∉ files.map Prod.fst → (atts.map Prod.fst).Nodup →
      (name, "data:" ++ mime ++ "," ++ payload)
        ∈ inject_attachments files atts) := by
  have hline := attachment_line_base64 b64 name mime payload hb64 hcomma
  refine ⟨?_, ?_, ?_⟩
  · intro decoded hdec
    have hl : attachment_line b64 name ("data:" ++ mime ++ "," ++ payload)
        = ("- " ++ name ++ ": " ++ strTake decoded 200 ++ "...") ++ "\n" := by
      rw [hline, hdec]
    obtain ⟨u, v, huv⟩ :=
      process_attachments_decomp b64 atts (name, "data:" ++ mime ++ "," ++ payload) hmem
    rw [hl] at huv
    refine create_prompt_contains brief checks _ _ u ('\n' :: v) ?_
    rw [huv]
    simp [String.data_append, List.append_assoc]
  · intro hdec
    have hl : attachment_line b64 name ("data:" ++ mime ++ "," ++ payload)
        = ("- " ++ name ++ ": [binary data]") ++ "\n" := by
      rw [hline, hdec]
    obtain ⟨u, v, huv⟩ :=
      process_attachments_decomp b64 atts (name, "data:" ++ mime ++ "," ++ payload) hmem
    rw [hl] at huv
    refine create_prompt_contains brief checks _ _ u ('\n' :: v) ?_
    rw [huv]
    simp [String.data_append, List.append_assoc]
  · intro files hfresh hnodup
    have hstart : strStartsWith ("data:" ++ mime ++ "," ++ payload) "data:" = true := by
      unfold strStartsWith
      have : ("data:" ++ mime ++ "," ++ payload).data
          = "data:".data ++ (mime.data ++ (',' :: payload.data)) := by
        simp [String.data_append]
      rw [this]
      exact isPrefixOf_self_append _ _
    exact inject_adds atts files name _ hmem hstart hfresh hnodup

theorem attachment_preview_and_injection_app :
    strContainsSub
      (create_prompt "b" [] (process_attachments b64Sample
        [("data.csv", "data:" ++ "text/csv;base64" ++ "," ++ "QUJD")]))
      ("- " ++ "data.csv" ++ ": " ++ strTake "ABC" 200 ++ "...") = true ∧
    ("data.csv", "data:" ++ "text/csv;base64" ++ "," ++ "QUJD")
      ∈ inject_attachments []
          [("data.csv", "data:" ++ "text/csv;base64" ++ "," ++ "QUJD")] := by
  have h := attachment_preview_and_injection b64Sample "b" []
    [("data.csv", "data:" ++ "text/csv;base64" ++ "," ++ "QUJD")]
    "data.csv" "text/csv;base64" "QUJD" (by decide) (by decide) (by decide)
  exact ⟨h.1 "ABC" (by decide), h.2.2 [] (by decide) (by decide)⟩

/-! ### Line splitting / joining -/

theorem lineStep_ne_nil (c : Char) (acc : List (List Char)) : lineStep c acc ≠ [] := by
  unfold lineStep
  split
  · exact List.cons_ne_nil _ _
  · cases acc with
    | nil => exact List.cons_ne_nil _ _
    | cons g gs => exact List.cons_ne_nil _ _

theorem splitLinesChars_ne_nil (cs : List Char) : splitLinesChars cs ≠ [] := by
  cases cs with
  | nil => exact List.cons_ne_nil _ _
  | cons c rest => exact lineStep_ne_nil c _

theorem splitLinesChars_no_newline (cs : List Char) :
    ∀ g ∈ splitLinesChars cs, '\n' ∉ g := by
  induction cs with
  | nil =>
    intro g hg
    simp only [splitLinesChars, List.foldr_nil, List.mem_singleton] at hg
    subst hg
    exact List.not_mem_nil _
  | cons c rest ih =>
    intro g hg
    have hg' : g ∈ lineStep c (splitLinesChars rest) := hg
    unfold lineStep at hg'
    split at hg'
    · rcases List.mem_cons.mp hg' with h | h
      · subst h; exact List.not_mem_nil _
      · exact ih g h
    · rename_i hc
      cases hS : splitLinesChars rest with
      | nil => exact absurd hS (splitLinesChars_ne_nil rest)
      | cons g0 gs =>
        rw [hS] at hg'
        rcases List.mem_cons.mp hg' with h | h
        · subst h
          intro hmem
          rcases List.mem_cons.mp hmem with h' | h'
          · exact hc h'.symm
          · exact ih g0 (hS ▸ List.mem_cons_self g0 gs) h'
        · exact ih g (hS ▸ List.mem_cons_of_mem g0 h)

theorem joinLinesChars_cons₂ (g h : List Char) (t : List (List Char)) :
    joinLinesChars (g :: h :: t) = g ++ '\n' :: joinLinesChars (h :: t) := rfl

theorem join_split (cs : List Char) : joinLinesChars (splitLinesChars cs) = cs := by
  induction cs with
  | nil => rfl
  | cons c rest ih =>
    show joinLinesChars (lineStep c (splitLinesChars rest)) = c :: rest
    unfold lineStep
    split
    · rename_i hc
      subst hc
      cases hS : splitLinesChars rest with
      | nil => exact absurd hS (splitLinesChars_ne_nil rest)
      | cons g gs =>
        rw [joinLinesChars_cons₂, ← hS, ih]
        rfl
    · rename_i hc
      cases hS : splitLinesChars rest with
      | nil => exact absurd hS (splitLinesChars_ne_nil rest)
      | cons g gs =>
        cases gs with
        | nil =>
          show c :: g = c :: rest
          have : joinLinesChars [g] = rest := by rw [← hS, ih]
          simpa [joinLinesChars] using this
        | cons h t =>
          rw [joinLinesChars_cons₂]
          have : joinLinesChars (g :: h :: t) = rest := by rw [← hS, ih]
          rw [joinLinesChars_cons₂] at this
          rw [← this]
          rfl

theorem foldr_lineStep_append (gs : List (List Char)) :
    ∀ a : List Char, a.foldr lineStep ([] :: gs) = splitLinesChars a ++ gs := by
  intro a
  induction a with
  | nil => rfl
  | cons c a' ih =>
    show lineStep c (a'.foldr lineStep ([] :: gs)) = lineStep c (splitLinesChars a') ++ gs
    rw [ih]
    unfold lineStep
    split
    · rfl
    · cases hS : splitLinesChars a' with
      | nil => exact absurd hS (splitLinesChars_ne_nil a')
      | cons g t => rfl

theorem splitLinesChars_append_newline (a b : List Char) :
    splitLinesChars (a ++ '\n' :: b) = splitLinesChars a ++ splitLinesChars b := by
  show (a ++ '\n' :: b).foldr lineStep [[]] = _
  rw [List.foldr_append]
  show a.foldr lineStep (lineStep '\n' (b.foldr lineStep [[]])) = _
  have h : lineStep '\n' (b.foldr lineStep [[]]) = [] :: splitLinesChars b := rfl
  rw [h]
  exact foldr_lineStep_append (splitLinesChars b) a

theorem splitLinesChars_of_no_newline (a : List Char) (h : '\n' ∉ a) :
    splitLinesChars a = [a] := by
  induction a with
  | nil => rfl
  | cons c a' ih =>
    have hc : ¬(c = '\n') := fun hcc => h (hcc ▸ List.mem_cons_self c a')
    have ih' := ih (fun hm => h (List.mem_cons_of_mem c hm))
    show lineStep c (splitLinesChars a') = [c :: a']
    rw [ih']
    unfold lineStep
    rw [if_neg hc]

theorem split_join (gs : List (List Char)) (hne : gs ≠ [])
    (hnl : ∀ g ∈ gs, '\n' ∉ g) :
    splitLinesChars (joinLinesChars gs) = gs := by
  induction gs with
  | nil => exact absurd rfl hne
  | cons g t ih =>
    cases t with
    | nil =>
      show splitLinesChars (joinLinesChars [g]) = [g]
      have : joinLinesChars [g] = g := rfl
      rw [this]
      exact splitLinesChars_of_no_newline g (hnl g (List.mem_singleton_self g))
    | cons h t' =>
      rw [joinLinesChars_cons₂, splitLinesChars_append_newline]
      rw [splitLinesChars_of_no_newline g (hnl g (List.mem_cons_self _ _))]
      rw [ih (List.cons_ne_nil _ _) (fun x hx => hnl x (List.mem_cons_of_mem _ hx))]
      rfl


/-! ### Double-ended trimming -/

theorem dropWhile_head?_false (p : α → Bool) (l : List α) :
    ∀ a, (l.dropWhile p).head? = some a → p a = false := by
  intro a ha
  have h := List.head?_dropWhile_not p l
  rw [ha] at h
  exact h

theorem dropWhile_eq_self_of_head (p : α → Bool) (l : List α)
    (h : ∀ a, l.head? = some a → p a = false) : l.dropWhile p = l := by
  cases l with
  | nil => rfl
  | cons a t =>
    have := h a rfl
    rw [List.dropWhile_cons_of_neg (by simp [this])]

theorem dropWhile_idem (p : α → Bool) (l : List α) :
    (l.dropWhile p).dropWhile p = l.dropWhile p :=
  dropWhile_eq_self_of_head p _ (dropWhile_head?_false p l)

theorem dropEnds_is_pref (p : α → Bool) (l : List α) :
    dropEnds p l <+: l.dropWhile p := by
  rw [← List.reverse_suffix]
  show (((l.dropWhile p).reverse.dropWhile p).reverse).reverse <:+ (l.dropWhile p).reverse
  rw [List.reverse_reverse]
  exact List.dropWhile_suffix p

theorem dropEnds_idem (p : α → Bool) (l : List α) :
    dropEnds p (dropEnds p l) = dropEnds p l := by
  have hrev : (dropEnds p l).reverse.dropWhile p = (dropEnds p l).reverse := by
    unfold dropEnds
    rw [List.reverse_reverse, dropWhile_idem]
  have hleft : (dropEnds p l).dropWhile p = dropEnds p l := by
    apply dropWhile_eq_self_of_head
    intro a ha
    obtain ⟨r, hr⟩ := dropEnds_is_pref p l
    have hhead : (l.dropWhile p).head? = some a := by
      cases hB : dropEnds p l with
      | nil => rw [hB] at ha; exact absurd ha (by simp)
      | cons y s =>
        rw [hB] at ha
        simp only [List.head?_cons, Option.some.injEq] at ha
        rw [← hr, hB]
        simp [ha]
    exact dropWhile_head?_false p l a hhead
  calc dropEnds p (dropEnds p l)
      = (((dropEnds p l).dropWhile p).reverse.dropWhile p).reverse := rfl
    _ = ((dropEnds p l).reverse.dropWhile p).reverse := by rw [hleft]
    _ = ((dropEnds p l).reverse).reverse := by rw [hrev]
    _ = dropEnds p l := List.reverse_reverse _

theorem dropEnds_subset (p : α → Bool) (l : List α) :
    ∀ a ∈ dropEnds p l, a ∈ l := by
  intro a ha
  have h1 : a ∈ (l.dropWhile p).reverse.dropWhile p := by
    simpa [dropEnds] using ha
  have h2 : a ∈ (l.dropWhile p).reverse := List.dropWhile_subset p h1
  have h3 : a ∈ l.dropWhile p := List.mem_reverse.mp h2
  exact List.dropWhile_subset p h3

/-! ### String-level lines and delimiter lines -/

theorem splitLines_no_newline (s : String) : ∀ l ∈ splitLines s, '\n' ∉ l.data := by
  intro l hl
  obtain ⟨g, hg, rfl⟩ := List.mem_map.mp hl
  simpa using splitLinesChars_no_newline s.data g hg

theorem splitLines_joinLines (ls : List String) (hne : ls ≠ [])
    (hnl : ∀ l ∈ ls, '\n' ∉ l.data) : splitLines (joinLines ls) = ls := by
  unfold splitLines joinLines
  have hd : (String.mk (joinLinesChars (ls.map String.data))).data
      = joinLinesChars (ls.map String.data) := rfl
  rw [hd]
  rw [split_join (ls.map String.data) (by simpa using hne)
    (by intro g hg; obtain ⟨l, hl, rfl⟩ := List.mem_map.mp hg; exact hnl l hl)]
  rw [List.map_map]
  have hcomp : (String.mk ∘ String.data) = id := funext (fun _ => rfl)
  rw [hcomp, List.map_id]

theorem mkDelimLine_data (n : String) :
    (mkDelimLine n).data = "=== ".data ++ (n.data ++ " ===".data) := by
  simp [mkDelimLine, String.data_append]

theorem isDelimLine_mkDelimLine (n : String) : isDelimLine (mkDelimLine n) = true := by
  unfold isDelimLine
  have h1 : "=== ".data.isPrefixOf (mkDelimLine n).data = true := by
    rw [mkDelimLine_data]
    exact isPrefixOf_self_append _ _
  have h2 : " ===".data.isSuffixOf (mkDelimLine n).data = true := by
    unfold List.isSuffixOf
    rw [mkDelimLine_data, List.reverse_append, List.reverse_append, List.append_assoc]
    exact isPrefixOf_self_append _ _
  have h3 : 8 ≤ (mkDelimLine n).data.length := by
    rw [mkDelimLine_data]
    have e1 : ("=== ".data).length = 4 := rfl
    have e2 : (" ===".data).length = 4 := rfl
    simp only [List.length_append, e1, e2]
    omega
  rw [h1, h2]
  simp only [Bool.true_and, decide_eq_true_eq]
  exact h3

theorem delimName_mkDelimLine (n : String) :
    delimName (mkDelimLine n) = ⟨trimChars n.data⟩ := by
  unfold delimName
  congr 1
  rw [mkDelimLine_data]
  have hlen : ("=== ".data ++ (n.data ++ " ===".data)).length = n.data.length + 8 := by
    have e1 : ("=== ".data).length = 4 := rfl
    have e2 : (" ===".data).length = 4 := rfl
    simp only [List.length_append, e1, e2]
    omega
  rw [hlen]
  have h4 : ("=== ".data ++ (n.data ++ " ===".data)).drop 4 = n.data ++ " ===".data := by
    have e1 : ("=== ".data).length = 4 := rfl
    rw [← e1, List.drop_left]
  rw [h4]
  have h5 : n.data.length + 8 - 8 = n.data.length := by omega
  rw [h5]
  rw [List.take_left n.data " ===".data]

theorem goodName_delimName (l : String) (hnl : '\n' ∉ l.data) : goodName (delimName l) := by
  constructor
  · show trimChars (delimName l).data = (delimName l).data
    unfold delimName
    exact dropEnds_idem isWSChar _
  · show '\n' ∉ (delimName l).data
    unfold delimName
    intro hmem
    have h1 := dropEnds_subset isWSChar _ _ hmem
    have h2 := List.take_subset _ _ h1
    have h3 := List.drop_subset _ _ h2
    exact hnl h3

/-! ### Scanner step equations and insertion -/

theorem parseGo_cons_delim_none (l : String) (rest : List String)
    (acc : List (String × String)) (h : isDelimLine l = true) :
    parseGo (l :: rest) none acc = parseGo rest (some (delimName l, [])) acc := by
  simp [parseGo, h]

theorem parseGo_cons_delim_some (l : String) (rest : List String) (n : String)
    (rc : List String) (acc : List (String × String)) (h : isDelimLine l = true) :
    parseGo (l :: rest) (some (n, rc)) acc
      = parseGo rest (some (delimName l, [])) (flushFile acc n rc) := by
  simp [parseGo, h]

theorem parseGo_cons_nondelim_none (l : String) (rest : List String)
    (acc : List (String × String)) (h : isDelimLine l = false) :
    parseGo (l :: rest) none acc = parseGo rest none acc := by
  simp [parseGo, h]

theorem parseGo_cons_nondelim_some (l : String) (rest : List String) (n : String)
    (rc : List String) (acc : List (String × String)) (h : isDelimLine l = false) :
    parseGo (l :: rest) (some (n, rc)) acc = parseGo rest (some (n, l :: rc)) acc := by
  simp [parseGo, h]

theorem parseGo_content (c : List String) (h : ∀ l ∈ c, isDelimLine l = false) :
    ∀ (rest : List String) (n : String) (rc : List String)
      (acc : List (String × String)),
      parseGo (c ++ rest) (some (n, rc)) acc
        = parseGo rest (some (n, c.reverse ++ rc)) acc := by
  induction c with
  | nil => intro rest n rc acc; simp
  | cons l c' ih =>
    intro rest n rc acc
    have hl : isDelimLine l = false := h l (List.mem_cons_self _ _)
    rw [List.cons_append, parseGo_cons_nondelim_some _ _ _ _ _ hl]
    rw [show ((l :: c').reverse ++ rc) = c'.reverse ++ (l :: rc) by simp]
    exact ih (fun x hx => h x (List.mem_cons_of_mem _ hx)) rest n (l :: rc) acc

theorem parseGo_flush (rest : List String)
    (h : rest = [] ∨ ∃ l rest', rest = l :: rest' ∧ isDelimLine l = true)
    (n : String) (rc : List String) (acc : List (String × String)) :
    parseGo rest (some (n, rc)) acc = parseGo rest none (flushFile acc n rc) := by
  rcases h with rfl | ⟨l, rest', rfl, hl⟩
  · rfl
  · rw [parseGo_cons_delim_some _ _ _ _ _ hl, parseGo_cons_delim_none _ _ _ hl]

theorem insertFile_fresh (m : List (String × String)) (n c : String)
    (h : n ∉ m.map Prod.fst) : insertFile m n c = m ++ [(n, c)] := by
  unfold insertFile
  have hany : m.any (fun e => e.1 == n) = false := by
    rw [List.any_eq_false]
    intro e he hbeq
    have heq : e.1 = n := by simpa using hbeq
    exact h (heq ▸ List.mem_map.mpr ⟨e, he, rfl⟩)
  simp [hany]

theorem insertFile_goodMap (m : List (String × String)) (n c : String)
    (hm : goodMap m) (hn : goodName n) (hc : goodContent c) :
    goodMap (insertFile m n c) := by
  unfold insertFile
  by_cases hany : m.any (fun e => e.1 == n) = true
  · rw [if_pos hany]
    constructor
    · intro e he
      obtain ⟨e', he', hee⟩ := List.mem_map.mp he
      by_cases hkey : (e'.1 == n) = true
      · rw [if_pos hkey] at hee
        rw [← hee]
        exact ⟨hn, hc⟩
      · rw [if_neg hkey] at hee
        rw [← hee]
        exact hm.1 e' he'
    · have hkeys : (m.map (fun e => if e.1 == n then (n, c) else e)).map Prod.fst
          = m.map Prod.fst := by
        rw [List.map_map]
        apply List.map_congr_left
        intro e _
        by_cases hkey : (e.1 == n) = true
        · simp only [Function.comp_apply, if_pos hkey]
          exact (beq_iff_eq.mp hkey).symm
        · simp only [Function.comp_apply, if_neg hkey]
      rw [hkeys]
      exact hm.2
  · rw [if_neg hany]
    constructor
    · intro e he
      rcases List.mem_append.mp he with h | h
      · exact hm.1 e h
      · simp only [List.mem_singleton] at h
        rw [h]
        exact ⟨hn, hc⟩
    · rw [List.map_append, List.nodup_append]
      refine ⟨hm.2, List.nodup_singleton _, ?_⟩
      intro a ha hb
      simp only [List.map_cons, List.map_nil, List.mem_singleton] at hb
      have hfalse : m.any (fun e => e.1 == n) = false := by
        cases hB : m.any (fun e => e.1 == n) with
        | false => rfl
        | true => exact absurd hB hany
      obtain ⟨e, he, hfst⟩ := List.mem_map.mp ha
      have hne := List.any_eq_false.mp hfalse e he
      apply hne
      simp [hfst, hb]

theorem goodContent_flush (rc : List String)
    (h : ∀ l ∈ rc, isDelimLine l = false ∧ '\n' ∉ l.data) :
    goodContent (joinLines (trimBlankLines rc.reverse)) := by
  have htbsub : ∀ l ∈ trimBlankLines rc.reverse, isDelimLine l = false ∧ '\n' ∉ l.data :=
    fun l hl => h l (List.mem_reverse.mp (dropEnds_subset _ _ l hl))
  cases htbe : trimBlankLines rc.reverse with
  | nil =>
    constructor
    · decide
    · decide
  | cons t ts =>
    have htbsub' : ∀ l ∈ (t :: ts), isDelimLine l = false ∧ '\n' ∉ l.data := by
      intro l hl
      exact htbsub l (by rw [htbe]; exact hl)
    have hnl : ∀ g ∈ (t :: ts), '\n' ∉ g.data := fun g hg => (htbsub' g hg).2
    have hsplit : splitLines (joinLines (t :: ts)) = t :: ts :=
      splitLines_joinLines _ (List.cons_ne_nil _ _) hnl
    constructor
    · rw [hsplit]
      have hfix : trimBlankLines (t :: ts) = t :: ts := by
        rw [← htbe]
        exact dropEnds_idem _ _
      rw [hfix]
    · rw [hsplit]
      intro l hl
      exact (htbsub' l hl).1

theorem parseGo_goodMap :
    ∀ (ls : List String), (∀ l ∈ ls, '\n' ∉ l.data) →
    ∀ (cur : Option (String × List String)) (acc : List (String × String)),
      (∀ n rc, cur = some (n, rc) →
        goodName n ∧ ∀ l ∈ rc, isDelimLine l = false ∧ '\n' ∉ l.data) →
      goodMap acc → goodMap (parseGo ls cur acc) := by
  intro ls
  induction ls with
  | nil =>
    intro _ cur acc hcur hacc
    cases cur with
    | none => exact hacc
    | some nc =>
      obtain ⟨n, rc⟩ := nc
      show goodMap (flushFile acc n rc)
      obtain ⟨hn, hrc⟩ := hcur n rc rfl
      exact insertFile_goodMap _ _ _ hacc hn (goodContent_flush rc hrc)
  | cons l rest ih =>
    intro hnl cur acc hcur hacc
    have hlnl : '\n' ∉ l.data := hnl l (List.mem_cons_self _ _)
    have hrest : ∀ x ∈ rest, '\n' ∉ x.data :=
      fun x hx => hnl x (List.mem_cons_of_mem _ hx)
    have hnewcur : ∀ n rc, some (delimName l, ([] : List String)) = some (n, rc) →
        goodName n ∧ ∀ x ∈ rc, isDelimLine x = false ∧ '\n' ∉ x.data := by
      intro n rc hsome
      have hpair : (delimName l, ([] : List String)) = (n, rc) :=
        Option.some.inj hsome
      have hn : delimName l = n := congrArg Prod.fst hpair
      have hrc : ([] : List String) = rc := congrArg Prod.snd hpair
      rw [← hn, ← hrc]
      exact ⟨goodName_delimName l hlnl, by intro x hx; cases hx⟩
    cases cur with
    | none =>
      by_cases hd : isDelimLine l = true
      · rw [parseGo_cons_delim_none _ _ _ hd]
        exact ih hrest _ _ hnewcur hacc
      · have hd' : isDelimLine l = false := by simpa using hd
        rw [parseGo_cons_nondelim_none _ _ _ hd']
        exact ih hrest none acc (by intro n rc h; cases h) hacc
    | some nc =>
      obtain ⟨n0, rc0⟩ := nc
      obtain ⟨hn0, hrc0⟩ := hcur n0 rc0 rfl
      by_cases hd : isDelimLine l = true
      · rw [parseGo_cons_delim_some _ _ _ _ _ hd]
        exact ih hrest _ _ hnewcur
          (insertFile_goodMap _ _ _ hacc hn0 (goodContent_flush rc0 hrc0))
      · have hd' : isDelimLine l = false := by simpa using hd
        rw [parseGo_cons_nondelim_some _ _ _ _ _ hd']
        refine ih hrest _ _ ?_ hacc
        intro n rc hsome
        have hpair : (n0, l :: rc0) = (n, rc) := Option.some.inj hsome
        have hn : n0 = n := congrArg Prod.fst hpair
        have hrc : l :: rc0 = rc := congrArg Prod.snd hpair
        rw [← hn, ← hrc]
        refine ⟨hn0, ?_⟩
        intro x hx
        rcases List.mem_cons.mp hx with h | h
        · rw [h]
          exact ⟨hd', hlnl⟩
        · exact hrc0 x h

theorem parseFiles_goodMap (ls : List String) (hnl : ∀ l ∈ ls, '\n' ∉ l.data) :
    goodMap (parseFiles ls) := by
  apply parseGo_goodMap ls hnl none []
  · intro n rc h
    cases h
  · exact ⟨fun e he => absurd he (List.not_mem_nil e), List.nodup_nil⟩

theorem parse_response_files_goodMap (s : String) : goodMap (parse_response_files s) :=
  parseFiles_goodMap (splitLines s) (splitLines_no_newline s)

/-! ### Serialization produces the expected line sequence -/

theorem splitLines_of_no_newline (x : String) (hx : '\n' ∉ x.data) :
    splitLines x = [x] := by
  unfold splitLines
  rw [splitLinesChars_of_no_newline x.data hx]
  rfl

theorem splitLines_join_append (x : String) (xs : List String) (hne : xs ≠ []) :
    splitLines (joinLines (x :: xs)) = splitLines x ++ splitLines (joinLines xs) := by
  unfold splitLines joinLines
  cases hxs : xs.map String.data with
  | nil => exact absurd (List.map_eq_nil.mp hxs) hne
  | cons y ys =>
    rw [List.map_cons, hxs]
    show (splitLinesChars (joinLinesChars (x.data :: y :: ys))).map String.mk
        = (splitLinesChars x.data).map String.mk
          ++ (splitLinesChars (joinLinesChars (y :: ys))).map String.mk
    rw [joinLinesChars_cons₂, splitLinesChars_append_newline, List.map_append]

theorem mkDelimLine_no_newline (n : String) (hn : '\n' ∉ n.data) :
    '\n' ∉ (mkDelimLine n).data := by
  rw [mkDelimLine_data]
  intro hmem
  rcases List.mem_append.mp hmem with h | h
  · exact absurd h (by decide)
  rcases List.mem_append.mp h with h | h
  · exact hn h
  · exact absurd h (by decide)

theorem serialize_splitLines :
    ∀ (m : List (String × String)), goodMap m → m ≠ [] →
      splitLines (serialize_files m) = parsedChunks m := by
  intro m
  induction m with
  | nil =>
    intro _ h
    exact absurd rfl h
  | cons e m' ih =>
    intro hm _
    have he := hm.1 e (List.mem_cons_self _ _)
    have hm' : goodMap m' := by
      refine ⟨fun x hx => hm.1 x (List.mem_cons_of_mem _ hx), ?_⟩
      have h2 := hm.2
      rw [List.map_cons] at h2
      exact (List.nodup_cons.mp h2).2
    have hdelim_nl : '\n' ∉ (mkDelimLine e.1).data := mkDelimLine_no_newline e.1 he.1.2
    cases m' with
    | nil =>
      show splitLines (joinLines (mkDelimLine e.1 :: [e.2]))
          = mkDelimLine e.1 :: (splitLines e.2 ++ parsedChunks [])
      rw [splitLines_join_append _ _ (List.cons_ne_nil _ _),
          splitLines_of_no_newline _ hdelim_nl]
      have hj : joinLines [e.2] = e.2 := rfl
      rw [hj]
      simp [parsedChunks]
    | cons e' m'' =>
      show splitLines (joinLines
            (mkDelimLine e.1 :: e.2 :: serializeChunks (e' :: m'')))
          = mkDelimLine e.1 :: (splitLines e.2 ++ parsedChunks (e' :: m''))
      rw [splitLines_join_append _ _ (List.cons_ne_nil _ _),
          splitLines_of_no_newline _ hdelim_nl]
      have hne2 : (e.2 :: serializeChunks (e' :: m'')) ≠ [] := List.cons_ne_nil _ _
      rw [splitLines_join_append _ _ (by
        show (mkDelimLine e'.1 :: e'.2 :: serializeChunks m'') ≠ []
        exact List.cons_ne_nil _ _)]
      have hser : splitLines (joinLines (serializeChunks (e' :: m'')))
          = parsedChunks (e' :: m'') := ih hm' (List.cons_ne_nil _ _)
      rw [hser]
      rfl

/-! ### Parsing the serialized lines recovers the mapping -/

theorem parseGo_parsedChunks :
    ∀ (m : List (String × String)) (acc : List (String × String)),
      goodMap m →
      (∀ k ∈ m.map Prod.fst, k ∉ acc.map Prod.fst) →
      parseGo (parsedChunks m) none acc = acc ++ m := by
  intro m
  induction m with
  | nil =>
    intro acc _ _
    simp [parsedChunks, parseGo]
  | cons e m' ih =>
    intro acc hm hdisj
    have he := hm.1 e (List.mem_cons_self _ _)
    have hm' : goodMap m' := by
      refine ⟨fun x hx => hm.1 x (List.mem_cons_of_mem _ hx), ?_⟩
      have h2 := hm.2
      rw [List.map_cons] at h2
      exact (List.nodup_cons.mp h2).2
    show parseGo (mkDelimLine e.1 :: (splitLines e.2 ++ parsedChunks m')) none acc
        = acc ++ e :: m'
    rw [parseGo_cons_delim_none _ _ _ (isDelimLine_mkDelimLine e.1),
        delimName_mkDelimLine]
    have hname : (⟨trimChars e.1.data⟩ : String) = e.1 := by
      have h1 := he.1.1
      calc (⟨trimChars e.1.data⟩ : String) = ⟨e.1.data⟩ := by rw [h1]
        _ = e.1 := rfl
    rw [hname]
    rw [parseGo_content (splitLines e.2) he.2.2 (parsedChunks m') e.1 [] acc]
    have hshape : parsedChunks m' = []
        ∨ ∃ l rest', parsedChunks m' = l :: rest' ∧ isDelimLine l = true := by
      cases m' with
      | nil => exact Or.inl rfl
      | cons e' m'' =>
        exact Or.inr ⟨mkDelimLine e'.1, splitLines e'.2 ++ parsedChunks m'',
          rfl, isDelimLine_mkDelimLine e'.1⟩
    rw [parseGo_flush (parsedChunks m') hshape e.1 ((splitLines e.2).reverse ++ []) acc]
    have hflush : flushFile acc e.1 ((splitLines e.2).reverse ++ [])
        = acc ++ [(e.1, e.2)] := by
      unfold flushFile
      rw [List.append_nil, List.reverse_reverse]
      rw [he.2.1]
      exact insertFile_fresh acc e.1 e.2 (hdisj e.1 (by simp))
    rw [hflush]
    have hdisj' : ∀ k ∈ m'.map Prod.fst, k ∉ (acc ++ [(e.1, e.2)]).map Prod.fst := by
      intro k hk
      rw [List.map_append]
      intro hc
      rcases List.mem_append.mp hc with hc | hc
      · exact hdisj k (by rw [List.map_cons]; exact List.mem_cons_of_mem _ hk) hc
      · simp only [List.map_cons, List.map_nil, List.mem_singleton] at hc
        have h2 := hm.2
        rw [List.map_cons] at h2
        exact (List.nodup_cons.mp h2).1 (hc ▸ hk)
    rw [ih (acc ++ [(e.1, e.2)]) hm' hdisj']
    rw [List.append_assoc]
    rfl

/-- C7: round trip of the Generator's delimiter parser.  For every completion
string, serializing the parsed file mapping back with the same delimiter
convention and re-parsing yields the identical mapping. -/
theorem parse_serialize_round_trip (s : String) :
    parse_response_files (serialize_files (parse_response_files s))
      = parse_response_files s := by
  have hgood := parse_response_files_goodMap s
  cases hm : parse_response_files s with
  | nil => decide
  | cons e m' =>
    rw [hm] at hgood
    show parseGo (splitLines (serialize_files (e :: m'))) none [] = e :: m'
    rw [serialize_splitLines (e :: m') hgood (List.cons_ne_nil _ _)]
    have h := parseGo_parsedChunks (e :: m') [] hgood
      (fun k _ hc => absurd hc (List.not_mem_nil k))
    simpa using h
